import Mathlib

/-!
Verification development for `Richie Tutorial/p4/threads.cc`: a micro-benchmark
with three concurrency workloads (a lock-protected shared counter, a table of
1024 sharded atomic counters, and a single-producer/multi-consumer queue), a
timed runner, and a behavior selector.

Concurrency is embedded by schedules: every lock-protected critical section and
every atomic read-modify-write of the C program is one atomic event, and an
execution is a list of such events.  Machine integers are modelled as `Nat`
with explicit reduction modulo `2 ^ 64` where the source uses `uint64_t`
arithmetic; `int` parameters are assumed to be 32-bit, so theorems carry
`< 2 ^ 31` range hypotheses where the absence of signed overflow in the source
depends on them.
-/

namespace Threads

/-- The `struct arg_t` of threads.cc: the parsed command-line configuration. -/
structure ArgT where
  num_ints : Int := 64
  num_threads : Int := 1
  behavior : String := "counter"
  usage : Bool := false

/-- Number of iterations of the C loop `for (int i = 0; i < num_ints; ++i)`:
zero when `num_ints <= 0`, else `num_ints`. -/
def iterCount (numInts : Int) : Nat := numInts.toNat

/-! ## Shared-counter workload (`run_counter_test`)

Each of `T` threads executes `num_ints` times the critical section
`{ lock_guard sync(lock); counter++; }` on a shared `uint64_t counter = 0`.
A schedule records, in order, which thread holds the lock for each increment. -/

/-- One `counter++` on the shared `uint64_t`, performed under the lock:
unsigned 64-bit arithmetic wraps modulo `2 ^ 64`. -/
def counterStep (c : Nat) : Nat := (c + 1) % 2 ^ 64

/-- A schedule (sequence of thread ids acquiring the lock) is a valid execution
of `run_counter_test` with `T` threads and `iters` iterations per thread when
every event belongs to a real thread and every thread performs exactly `iters`
increments. -/
def validSched (T iters : Nat) (sched : List Nat) : Prop :=
  (∀ t ∈ sched, t < T) ∧ ∀ t < T, sched.count t = iters

instance (T iters : Nat) (sched : List Nat) : Decidable (validSched T iters sched) := by
  unfold validSched; infer_instance

/-- Final value of the shared counter after executing a schedule. -/
def runCounter (sched : List Nat) : Nat := sched.foldl (fun c _ => counterStep c) 0

/-- A list of naturals all below `N` has as many elements as the total of its
per-value occurrence counts over `0 .. N-1`. -/
lemma sum_count_eq_length (N : Nat) (l : List Nat) (h : ∀ x ∈ l, x < N) :
    (∑ t ∈ Finset.range N, l.count t) = l.length := by
  induction l with
  | nil => simp
  | cons a tl ih =>
    have ha : a ∈ Finset.range N := Finset.mem_range.2 (h a (List.mem_cons_self a tl))
    have htl : ∀ x ∈ tl, x < N := fun x hx => h x (List.mem_cons_of_mem _ hx)
    simp only [List.count_cons, List.length_cons, beq_iff_eq]
    rw [Finset.sum_add_distrib, ih htl, Finset.sum_ite_eq (Finset.range N) a fun _ => 1]
    rw [if_pos ha]

/-- Folding `counter++` (mod `2 ^ 64`) over a schedule adds its length. -/
lemma foldl_counterStep (l : List Nat) : ∀ c, c < 2 ^ 64 →
    l.foldl (fun c _ => counterStep c) c = (c + l.length) % 2 ^ 64 := by
  induction l with
  | nil => intro c hc; simpa using (Nat.mod_eq_of_lt hc).symm
  | cons a tl ih =>
    intro c hc
    simp only [List.foldl_cons, List.length_cons]
    rw [ih (counterStep c) (Nat.mod_lt _ (by norm_num))]
    unfold counterStep
    rw [Nat.mod_add_mod]
    congr 1
    omega

lemma runCounter_eq_length (sched : List Nat) : runCounter sched = sched.length % 2 ^ 64 := by
  unfold runCounter
  rw [foldl_counterStep sched 0 (by norm_num), Nat.zero_add]

/-- A valid schedule has exactly `T * iters` increment events. -/
lemma validSched_length (T iters : Nat) (sched : List Nat)
    (hv : validSched T iters sched) : sched.length = T * iters := by
  rw [← sum_count_eq_length T sched hv.1]
  calc (∑ t ∈ Finset.range T, sched.count t)
      = ∑ _t ∈ Finset.range T, iters :=
        Finset.sum_congr rfl fun t ht => hv.2 t (Finset.mem_range.1 ht)
    _ = T * iters := by simp [mul_comm]

/-- Under 32-bit `int` parameter bounds, the final counter is exactly the
total number of increments, with no 64-bit wrap-around. -/
lemma runCounter_of_valid (T iters : Nat) (sched : List Nat)
    (hT : T < 2 ^ 31) (hi : iters < 2 ^ 31) (hv : validSched T iters sched) :
    runCounter sched = T * iters := by
  rw [runCounter_eq_length, validSched_length T iters sched hv]
  have hlt : T * iters < 2 ^ 64 := by
    calc T * iters ≤ 2 ^ 31 * 2 ^ 31 := Nat.mul_le_mul hT.le hi.le
    _ < 2 ^ 64 := by norm_num
  exact Nat.mod_eq_of_lt hlt

/-- C2: for every `num_threads ≥ 1` and `num_ints ≥ 0` (both 32-bit `int`
values), every interleaving of the single-counter workload — each thread
performing its `num_ints` lock-protected increments of the shared `uint64_t`
counter — leaves the counter exactly `num_threads * num_ints`: no lost
updates. -/
theorem counter_final_value (T iters : Nat) (sched : List Nat)
    (_hT1 : 1 ≤ T) (hT : T < 2 ^ 31) (hi : iters < 2 ^ 31)
    (hv : validSched T iters sched) :
    runCounter sched = T * iters :=
  runCounter_of_valid T iters sched hT hi hv

/-- Witness for C2 at `T = 2`, `iters = 3` and a concrete interleaving. -/
theorem counter_final_value_witness : runCounter [0, 1, 0, 1, 0, 1] = 2 * 3 :=
  counter_final_value 2 3 [0, 1, 0, 1, 0, 1]
    (by norm_num) (by norm_num) (by norm_num) (by decide)

/-! ## Sharded-counters workload (`run_counters_test`)

Each of `T` threads seeds a private generator with its id and performs
`num_ints` atomic fetch-and-add increments `counters[rand_r(&seed) % 1024]++`
on a table of 1024 `std::atomic<uint64_t>` slots. -/

/-- glibc `rand_r`: three rounds of the linear congruential step
`next = next * 1103515245 + 12345` on a 32-bit unsigned state, mixing bits
`16 .. 26` of each round into the result.  Returns the `int` result (always
in `[0, 2^31)`) and the updated seed. -/
def rand_r (seed : Nat) : Nat × Nat :=
  let m := 2 ^ 32
  let n1 := (seed * 1103515245 + 12345) % m
  let r1 := (n1 / 65536) % 2048
  let n2 := (n1 * 1103515245 + 12345) % m
  let r2 := (r1 <<< 10) ^^^ ((n2 / 65536) % 1024)
  let n3 := (n2 * 1103515245 + 12345) % m
  let r3 := (r2 <<< 10) ^^^ ((n3 / 65536) % 1024)
  (r3, n3)

/-- The stream of shard indices `rand_r(&seed) % 1024` drawn by one worker
over `k` loop iterations, starting from a given seed. -/
def randIdxs (seed : Nat) : Nat → List Nat
  | 0 => []
  | k + 1 => (rand_r seed).1 % 1024 :: randIdxs (rand_r seed).2 k

/-- All shard indices drawn in the sharded workload: thread `t` seeds its
generator with `(unsigned)t` and draws `iters` indices. -/
def allIdxs (T iters : Nat) : List Nat :=
  (List.range T).flatMap fun t => randIdxs t iters

/-- Final slot table after executing a sequence of atomic increments
`counters[idx].counter++` in some global order: each increment is one atomic
fetch-and-add on a `uint64_t` slot, wrapping modulo `2 ^ 64`. -/
def runCounters (sched : List Nat) : Nat → Nat :=
  sched.foldl (fun g idx => Function.update g idx ((g idx + 1) % 2 ^ 64)) fun _ => 0

/-- Sum of all 1024 slots of the table. -/
def sumSlots (f : Nat → Nat) : Nat := ∑ j ∈ Finset.range 1024, f j

/-- The result of `rand_r` is below `2 ^ 31`: the C `int` it returns is
non-negative. -/
lemma rand_r_lt (seed : Nat) : (rand_r seed).1 < 2 ^ 31 := by
  unfold rand_r
  simp only
  apply Nat.xor_lt_two_pow (n := 31)
  · rw [Nat.shiftLeft_eq]
    have h2 : ((((seed * 1103515245 + 12345) % 2 ^ 32 / 65536) % 2048) <<< 10) ^^^
        ((((seed * 1103515245 + 12345) % 2 ^ 32 * 1103515245 + 12345) % 2 ^ 32 / 65536) % 1024)
        < 2 ^ 21 := by
      apply Nat.xor_lt_two_pow (n := 21)
      · rw [Nat.shiftLeft_eq]
        have : (seed * 1103515245 + 12345) % 2 ^ 32 / 65536 % 2048 < 2 ^ 11 :=
          Nat.mod_lt _ (by norm_num)
        calc (seed * 1103515245 + 12345) % 2 ^ 32 / 65536 % 2048 * 2 ^ 10
            < 2 ^ 11 * 2 ^ 10 := by
              exact Nat.mul_lt_mul_of_lt_of_le this (le_refl _) (by norm_num)
          _ = 2 ^ 21 := by norm_num
      · calc ((seed * 1103515245 + 12345) % 2 ^ 32 * 1103515245 + 12345) % 2 ^ 32 / 65536 % 1024
            < 1024 := Nat.mod_lt _ (by norm_num)
          _ ≤ 2 ^ 21 := by norm_num
    calc _ * 2 ^ 10 < 2 ^ 21 * 2 ^ 10 :=
        Nat.mul_lt_mul_of_lt_of_le h2 (le_refl _) (by norm_num)
      _ = 2 ^ 31 := by norm_num
  · calc _ % 1024 < 1024 := Nat.mod_lt _ (by norm_num)
      _ ≤ 2 ^ 31 := by norm_num

/-- Every drawn shard index is below 1024. -/
lemma mem_randIdxs_lt (seed k i : Nat) (h : i ∈ randIdxs seed k) : i < 1024 := by
  induction k generalizing seed with
  | zero => simp [randIdxs] at h
  | succ k ih =>
    simp only [randIdxs, List.mem_cons] at h
    rcases h with h | h
    · subst h; exact Nat.mod_lt _ (by norm_num)
    · exact ih _ h

lemma randIdxs_length (seed k : Nat) : (randIdxs seed k).length = k := by
  induction k generalizing seed with
  | zero => rfl
  | succ k ih => simp [randIdxs, ih]

lemma allIdxs_length (T iters : Nat) : (allIdxs T iters).length = T * iters := by
  unfold allIdxs
  induction T with
  | zero => simp
  | succ T ih =>
    rw [List.range_succ, List.flatMap_append, List.length_append, ih]
    simp [randIdxs_length, Nat.succ_mul]

lemma mem_allIdxs_lt (T iters i : Nat) (h : i ∈ allIdxs T iters) : i < 1024 := by
  unfold allIdxs at h
  rw [List.mem_flatMap] at h
  obtain ⟨t, _, hm⟩ := h
  exact mem_randIdxs_lt t iters i hm

/-- Each slot of the final table holds its number of increments, mod `2 ^ 64`. -/
lemma foldl_update_count (sched : List Nat) :
    ∀ (f : Nat → Nat) (j : Nat), f j < 2 ^ 64 →
    (sched.foldl (fun g idx => Function.update g idx ((g idx + 1) % 2 ^ 64)) f) j
      = (f j + sched.count j) % 2 ^ 64 := by
  induction sched with
  | nil => intro f j hf; simpa using (Nat.mod_eq_of_lt hf).symm
  | cons a tl ih =>
    intro f j hf
    simp only [List.foldl_cons]
    by_cases hja : j = a
    · subst hja
      rw [ih _ j (by rw [Function.update_same]; exact Nat.mod_lt _ (by norm_num))]
      rw [Function.update_same, Nat.mod_add_mod, List.count_cons_self]
      congr 1
      omega
    · rw [ih _ j (by rw [Function.update_noteq hja]; exact hf)]
      rw [Function.update_noteq hja, List.count_cons_of_ne]
      exact fun h => hja (by simpa using h)

lemma runCounters_apply (sched : List Nat) (j : Nat) :
    runCounters sched j = sched.count j % 2 ^ 64 := by
  unfold runCounters
  rw [foldl_update_count sched _ j (by norm_num), Nat.zero_add]

/-- If every event of a schedule targets a slot `< 1024` and the schedule is
not long enough to wrap a `uint64_t`, the sum of the 1024 slots is the number
of events. -/
lemma sumSlots_run (sched : List Nat) (hmem : ∀ x ∈ sched, x < 1024)
    (hlen : sched.length < 2 ^ 64) :
    sumSlots (runCounters sched) = sched.length := by
  unfold sumSlots
  calc (∑ j ∈ Finset.range 1024, runCounters sched j)
      = ∑ j ∈ Finset.range 1024, sched.count j := by
        refine Finset.sum_congr rfl fun j _ => ?_
        rw [runCounters_apply]
        exact Nat.mod_eq_of_lt (lt_of_le_of_lt (List.count_le_length _ _) hlen)
    _ = sched.length := sum_count_eq_length 1024 sched hmem

/-- C3: for every `num_threads ≥ 1` and `num_ints ≥ 0` (32-bit `int` values),
any global ordering of the sharded workload's atomic increments — thread `t`
drawing its shard indices from `rand_r` seeded with `t` — leaves the sum over
all 1024 slots exactly `num_threads * num_ints`, regardless of how the random
draws distribute across slots. -/
theorem counters_slot_sum (T iters : Nat) (sched : List Nat)
    (_hT1 : 1 ≤ T) (hT : T < 2 ^ 31) (hi : iters < 2 ^ 31)
    (hp : sched.Perm (allIdxs T iters)) :
    sumSlots (runCounters sched) = T * iters := by
  have hlen : sched.length = T * iters := by
    rw [hp.length_eq, allIdxs_length]
  have hmem : ∀ x ∈ sched, x < 1024 := fun x hx =>
    mem_allIdxs_lt T iters x (hp.mem_iff.1 hx)
  rw [sumSlots_run sched hmem, hlen]
  rw [hlen]
  calc T * iters ≤ 2 ^ 31 * 2 ^ 31 := Nat.mul_le_mul hT.le hi.le
    _ < 2 ^ 64 := by norm_num

/-- Witness for C3 at `T = 2`, `iters = 2`, program-order schedule. -/
theorem counters_slot_sum_witness : sumSlots (runCounters (allIdxs 2 2)) = 2 * 2 :=
  counters_slot_sum 2 2 (allIdxs 2 2)
    (by norm_num) (by norm_num) (by norm_num) (List.Perm.refl _)

/-- C9: every shard index the sharded workload computes, `rand_r(&seed) % 1024`,
lies in `[0, 1024)` — `rand_r` returns a non-negative `int` (below `2 ^ 31`),
so the reduction mod 1024 lands inside the 1024-entry table for every worker,
iteration and seed, and out-of-bounds access is impossible. -/
theorem shard_index_in_bounds :
    (∀ seed, (rand_r seed).1 < 2 ^ 31) ∧
    (∀ seed k i, i ∈ randIdxs seed k → i < 1024) :=
  ⟨rand_r_lt, fun seed k i h => mem_randIdxs_lt seed k i h⟩

/-- Witness for C9: the first index drawn by thread 0 is in bounds. -/
theorem shard_index_in_bounds_witness : (rand_r 0).1 % 1024 < 1024 :=
  shard_index_in_bounds.2 0 1 ((rand_r 0).1 % 1024) (by simp [randIdxs])

/-- C10: for any `num_ints ≤ 0` (the parser's `atoi` accepts negatives), the
loop guard `i < num_ints` fails at once, so both the shared counter and the
sum of the 1024 slots are exactly 0 on completion. -/
theorem nonpositive_ints_zero_work (numInts : Int) (T : Nat)
    (sched schedSh : List Nat)
    (hle : numInts ≤ 0)
    (hv : validSched T (iterCount numInts) sched)
    (hp : schedSh.Perm (allIdxs T (iterCount numInts))) :
    runCounter sched = 0 ∧ sumSlots (runCounters schedSh) = 0 := by
  have h0 : iterCount numInts = 0 := Int.toNat_of_nonpos hle
  constructor
  · rw [runCounter_eq_length, validSched_length T (iterCount numInts) sched hv, h0,
      Nat.mul_zero]
    norm_num
  · rw [sumSlots_run schedSh
      (fun x hx => mem_allIdxs_lt T (iterCount numInts) x (hp.mem_iff.1 hx))
      (by rw [hp.length_eq, allIdxs_length, h0, Nat.mul_zero]; norm_num),
      hp.length_eq, allIdxs_length, h0, Nat.mul_zero]

/-- Witness for C10 at `num_ints = -5`, `T = 3`. -/
theorem nonpositive_ints_zero_work_witness :
    runCounter [] = 0 ∧ sumSlots (runCounters []) = 0 :=
  nonpositive_ints_zero_work (-5) 3 [] []
    (by norm_num) (by decide)
    (by rw [show allIdxs 3 (iterCount (-5)) = [] from rfl])

/-! ## Producer/consumer workload (`run_queue_test`)

`C = num_threads - 1` consumers and one producer share a lock-guarded
`std::queue<int>`, an atomic completion flag `done`, and atomic accumulators
`sum` and `count`.  The producer (thread 0) pushes the values
`0 .. n - 1` (where `n = (num_threads - 1) * num_ints`), one lock-protected
push per value, then sets `done`.  Each consumer repeatedly takes the lock and
either exits its loop (queue empty and `done`), pops the front item into
thread-local accumulators, or spins.  On exit it adds its locals into the
global atomic accumulators.  The closing busy-wait barrier
`while (count != n)` and the spin iterations change no state and are elided.

Every lock-protected critical section and every atomic access is one event;
consumers are numbered `0 .. C - 1` (consumer `c` is thread `c + 1`). -/

/-- One atomic step of the queue workload. -/
inductive QEvent where
  /-- The producer pushes the next value under the lock. -/
  | push
  /-- The producer's `done = true` after its loop. -/
  | setDone
  /-- Consumer `c` pops the front item under the lock into its locals. -/
  | pop (c : Nat)
  /-- Consumer `c` sees the queue empty with `done` set, exits its loop and
  adds its thread-local sum and count into the global accumulators. -/
  | exitFlush (c : Nat)

/-- Shared and per-consumer state of the queue workload.  `popLog` is a ghost
history of pop events `(consumer, value)` used to state the exactly-once
property; it shadows the queue operations and changes no behavior. -/
structure QState where
  /-- How many values the producer has pushed (it pushes `0, 1, 2, ...`). -/
  pushed : Nat
  /-- The `std::queue<int>` contents, front first. -/
  queue : List Nat
  /-- The atomic completion flag. -/
  done : Bool
  /-- Each consumer's thread-local `my_sum`. -/
  localSum : Nat → Nat
  /-- Each consumer's thread-local `my_count`. -/
  localCount : Nat → Nat
  /-- Whether a consumer has exited its pop loop and flushed its locals. -/
  exited : Nat → Bool
  /-- The global atomic `sum`. -/
  gsum : Nat
  /-- The global atomic `count`. -/
  gcount : Nat
  /-- Ghost: the pop events `(consumer, value)` in order. -/
  popLog : List (Nat × Nat)

/-- Initial state: empty queue, flag clear, all accumulators zero. -/
def qinit : QState :=
  { pushed := 0, queue := [], done := false,
    localSum := fun _ => 0, localCount := fun _ => 0, exited := fun _ => false,
    gsum := 0, gcount := 0, popLog := [] }

/-- The number of items popped so far. -/
def popped (s : QState) : Nat := s.popLog.length

/-- One transition of the queue workload with `C` consumers and `n` total work
items; `none` when the event is not enabled in `s`. -/
def qstep (C n : Nat) (s : QState) : QEvent → Option QState
  | .push =>
      if s.pushed < n then
        some { s with queue := s.queue ++ [s.pushed], pushed := s.pushed + 1 }
      else none
  | .setDone =>
      if s.pushed = n ∧ s.done = false then some { s with done := true } else none
  | .pop c =>
      if c < C ∧ s.exited c = false then
        match s.queue with
        | [] => none
        | v :: rest =>
            some { s with
                   queue := rest,
                   localSum := Function.update s.localSum c (s.localSum c + v),
                   localCount := Function.update s.localCount c (s.localCount c + 1),
                   popLog := s.popLog ++ [(c, v)] }
      else none
  | .exitFlush c =>
      if c < C ∧ s.exited c = false ∧ s.queue = [] ∧ s.done = true then
        some { s with
               exited := Function.update s.exited c true,
               gsum := s.gsum + s.localSum c,
               gcount := s.gcount + s.localCount c }
      else none

/-- Run a list of events from a state; `none` if any event is not enabled. -/
def qrun (C n : Nat) (s : QState) : List QEvent → Option QState
  | [] => some s
  | e :: evs =>
      match qstep C n s e with
      | none => none
      | some s2 => qrun C n s2 evs

/-- The workload has terminated: production is complete and every consumer has
exited its loop and flushed its locals (the remaining barrier spins change no
state). -/
def qterminal (C : Nat) (s : QState) : Prop :=
  s.done = true ∧ ∀ c < C, s.exited c = true

/-- The inductive invariant of the queue workload with `C` consumers and `n`
work items. -/
structure QInv (C n : Nat) (s : QState) : Prop where
  /-- The producer never pushes more than `n` items. -/
  pushed_le : s.pushed ≤ n
  /-- The flag is set only after all `n` pushes. -/
  done_pushed : s.done = true → s.pushed = n
  /-- Pops never outrun pushes. -/
  popped_le : popped s ≤ s.pushed
  /-- FIFO contents: the queue holds `popped, popped + 1, .., pushed - 1`. -/
  queue_eq : s.queue = (List.range (s.pushed - popped s)).map fun i => i + popped s
  /-- The values popped so far are `0, 1, .., popped - 1`, in order. -/
  log_vals : s.popLog.map Prod.snd = List.range (popped s)
  /-- Every pop was performed by a real consumer. -/
  log_consumers : ∀ p ∈ s.popLog, p.1 < C
  /-- Counting: the global count plus the unflushed local counts equals the
  number of popped items. -/
  count_acc : s.gcount +
    (∑ c ∈ Finset.range C, if s.exited c then 0 else s.localCount c) = popped s
  /-- Summing: the global sum plus the unflushed local sums equals the sum of
  the popped values. -/
  sum_acc : s.gsum +
    (∑ c ∈ Finset.range C, if s.exited c then 0 else s.localSum c)
      = (List.range (popped s)).sum
  /-- A consumer exits only after the flag is set. -/
  exited_done : ∀ c < C, s.exited c = true → s.done = true
  /-- Once every consumer has exited, the queue is empty. -/
  drained : 0 < C → (∀ c < C, s.exited c = true) → s.queue = []

/-- The initial state satisfies the invariant. -/
lemma qinv_init (C n : Nat) : QInv C n qinit := by
  constructor <;> simp [qinit, popped, qterminal]

/-- Splitting two sums over `0 .. C-1` that differ only at index `c < C`. -/
lemma sum_split_update (C c : Nat) (hc : c < C) (F G : Nat → Nat)
    (hagree : ∀ x, x ≠ c → G x = F x) :
    (∑ x ∈ Finset.range C, G x) + F c = (∑ x ∈ Finset.range C, F x) + G c := by
  have hcm : c ∈ Finset.range C := Finset.mem_range.2 hc
  rw [← Finset.add_sum_erase _ G hcm, ← Finset.add_sum_erase _ F hcm]
  have hrest : (∑ x ∈ (Finset.range C).erase c, G x)
      = ∑ x ∈ (Finset.range C).erase c, F x :=
    Finset.sum_congr rfl fun x hx => hagree x (Finset.ne_of_mem_erase hx)
  rw [hrest]
  ring

/-- Every enabled step preserves the queue-workload invariant. -/
lemma qinv_step (C n : Nat) (s s2 : QState) (e : QEvent)
    (hinv : QInv C n s) (hstep : qstep C n s e = some s2) : QInv C n s2 := by
  cases e with
  | push =>
    simp only [qstep] at hstep
    split_ifs at hstep with h
    injection hstep with hs2
    subst hs2
    have hple := hinv.popped_le
    dsimp only [popped] at hple
    refine { pushed_le := ?_, done_pushed := ?_, popped_le := ?_, queue_eq := ?_,
             log_vals := ?_, log_consumers := ?_, count_acc := ?_, sum_acc := ?_,
             exited_done := ?_, drained := ?_ } <;> dsimp only [popped]
    · omega
    · intro hd
      have := hinv.done_pushed hd
      omega
    · exact le_trans hple (Nat.le_succ _)
    · have hq := hinv.queue_eq
      dsimp only [popped] at hq
      have hk : s.pushed + 1 - s.popLog.length = (s.pushed - s.popLog.length) + 1 := by
        omega
      rw [hk, List.range_succ, List.map_append, ← hq]
      congr 1
      simp only [List.map_cons, List.map_nil]
      congr 1
      omega
    · exact hinv.log_vals
    · exact hinv.log_consumers
    · exact hinv.count_acc
    · exact hinv.sum_acc
    · exact hinv.exited_done
    · intro hC hall
      exfalso
      have hex : s.exited 0 = true := hall 0 hC
      have hd : s.done = true := hinv.exited_done 0 hC hex
      have := hinv.done_pushed hd
      omega
  | setDone =>
    simp only [qstep] at hstep
    split_ifs at hstep with h
    injection hstep with hs2
    subst hs2
    refine { pushed_le := hinv.pushed_le, done_pushed := fun _ => h.1,
             popped_le := hinv.popped_le, queue_eq := hinv.queue_eq,
             log_vals := hinv.log_vals, log_consumers := hinv.log_consumers,
             count_acc := hinv.count_acc, sum_acc := hinv.sum_acc,
             exited_done := fun _ _ _ => rfl,
             drained := fun hC hall => hinv.drained hC hall }
  | pop c =>
    simp only [qstep] at hstep
    split_ifs at hstep with h
    split at hstep
    · exact absurd hstep (by simp)
    · rename_i v rest hq
      injection hstep with hs2
      subst hs2
      -- The queue is the contiguous range `popped .. pushed - 1`, so the
      -- popped front is exactly `popped s`.
      have hkpos : s.pushed - popped s ≠ 0 := by
        intro h0
        rw [hinv.queue_eq, h0] at hq
        simp at hq
      obtain ⟨m, hm⟩ : ∃ m, s.pushed - popped s = m + 1 :=
        ⟨s.pushed - popped s - 1, by omega⟩
      have hq2 := hinv.queue_eq
      rw [hm, List.range_succ_eq_map, List.map_cons, List.map_map] at hq2
      rw [hq] at hq2
      injection hq2 with hv hrest
      have hvP : v = s.popLog.length := by
        dsimp only [popped] at hv
        omega
      have hple := hinv.popped_le
      dsimp only [popped] at hple hm
      refine { pushed_le := hinv.pushed_le, done_pushed := hinv.done_pushed,
               popped_le := ?_, queue_eq := ?_, log_vals := ?_,
               log_consumers := ?_, count_acc := ?_, sum_acc := ?_,
               exited_done := hinv.exited_done, drained := ?_ } <;>
        dsimp only [popped] <;>
        (try simp only [List.length_append, List.length_cons, List.length_nil])
      · omega
      · rw [hrest]
        have hm2 : s.pushed - (s.popLog.length + 1) = m := by omega
        rw [hm2]
        refine List.map_congr_left fun i _ => ?_
        dsimp only [Function.comp, popped]
        omega
      · have hlog := hinv.log_vals
        dsimp only [popped] at hlog
        rw [List.map_append, hlog, List.range_succ]
        simp [hvP]
      · intro p hp
        rcases List.mem_append.1 hp with hp1 | hp2
        · exact hinv.log_consumers p hp1
        · simp only [List.mem_singleton] at hp2
          subst hp2
          exact h.1
      · have hsplit := sum_split_update C c h.1
          (fun x => if s.exited x then 0 else s.localCount x)
          (fun x => if s.exited x then 0 else Function.update s.localCount c (s.localCount c + 1) x)
          (fun x hx => by simp only [Function.update_noteq hx])
        simp only [h.2, Function.update_same, Bool.false_eq_true, if_false] at hsplit
        have hcacc := hinv.count_acc
        dsimp only [popped] at hcacc
        omega
      · have hsplit := sum_split_update C c h.1
          (fun x => if s.exited x then 0 else s.localSum x)
          (fun x => if s.exited x then 0 else Function.update s.localSum c (s.localSum c + v) x)
          (fun x hx => by simp only [Function.update_noteq hx])
        simp only [h.2, Function.update_same, Bool.false_eq_true, if_false] at hsplit
        have hsacc := hinv.sum_acc
        dsimp only [popped] at hsacc
        rw [List.range_succ, List.sum_append, List.sum_cons, List.sum_nil]
        omega
      · intro hC hall
        exact absurd (hall c h.1) (by simp [h.2])
  | exitFlush c =>
    simp only [qstep] at hstep
    split_ifs at hstep with h
    injection hstep with hs2
    subst hs2
    obtain ⟨hc, hex, hqe, hd⟩ := h
    refine { pushed_le := hinv.pushed_le, done_pushed := hinv.done_pushed,
             popped_le := hinv.popped_le, queue_eq := hinv.queue_eq,
             log_vals := hinv.log_vals, log_consumers := hinv.log_consumers,
             count_acc := ?_, sum_acc := ?_,
             exited_done := fun _ _ _ => hd, drained := fun _ _ => hqe }
    · have hsplit := sum_split_update C c hc
        (fun x => if s.exited x then 0 else s.localCount x)
        (fun x => if Function.update s.exited c true x then 0 else s.localCount x)
        (fun x hx => by simp only [Function.update_noteq hx])
      simp only [hex, Function.update_same, if_true, Bool.false_eq_true, if_false] at hsplit
      have hcacc := hinv.count_acc
      dsimp only [popped] at hcacc ⊢
      omega
    · have hsplit := sum_split_update C c hc
        (fun x => if s.exited x then 0 else s.localSum x)
        (fun x => if Function.update s.exited c true x then 0 else s.localSum x)
        (fun x hx => by simp only [Function.update_noteq hx])
      simp only [hex, Function.update_same, if_true, Bool.false_eq_true, if_false] at hsplit
      have hsacc := hinv.sum_acc
      dsimp only [popped] at hsacc ⊢
      omega

/-- The invariant holds after any enabled event sequence. -/
lemma qinv_run (C n : Nat) (evs : List QEvent) : ∀ s s2 : QState, QInv C n s →
    qrun C n s evs = some s2 → QInv C n s2 := by
  induction evs with
  | nil =>
    intro s s2 hinv h
    simp only [qrun] at h
    injection h with h
    rwa [← h]
  | cons e evs ih =>
    intro s s2 hinv h
    simp only [qrun] at h
    cases hst : qstep C n s e with
    | none => rw [hst] at h; exact absurd h (by simp)
    | some s1 =>
      rw [hst] at h
      exact ih s1 s2 (qinv_step C n s s1 e hinv hst) h

/-- Twice the sum `0 + 1 + .. + (n-1)`, plus `n`, is `n * n`. -/
lemma two_mul_range_sum (n : Nat) : 2 * (List.range n).sum + n = n * n := by
  induction n with
  | zero => rfl
  | succ n ih =>
    rw [List.range_succ, List.sum_append]
    simp only [List.sum_cons, List.sum_nil]
    have h2 : (n + 1) * (n + 1) = n * n + 2 * n + 1 := by ring
    rw [h2, ← ih]
    ring

/-- Gauss: the sum `0 + 1 + .. + (n-1)` is `n * (n - 1) / 2`. -/
lemma range_sum_eq (n : Nat) : (List.range n).sum = n * (n - 1) / 2 := by
  have h := two_mul_range_sum n
  have h2 : n * (n - 1) = n * n - n := by
    cases n with
    | zero => rfl
    | succ m => rw [Nat.succ_sub_one, Nat.mul_succ, Nat.add_sub_cancel]
  rw [h2]
  generalize hA : n * n = A at h
  omega

/-- In any terminated execution, every item was pushed and popped: the popped
count is `n`, the global count is `n` and the global sum is `0 + .. + (n-1)`.
Requires at least one consumer or no work items (the source only reaches the
zero-consumer case with `n = 0`). -/
lemma qfinal_values (C n : Nat) (s : QState) (hinv : QInv C n s)
    (hterm : qterminal C s) (hC : 0 < C ∨ n = 0) :
    popped s = n ∧ s.gcount = n ∧ s.gsum = (List.range n).sum := by
  have hzc : (∑ c ∈ Finset.range C, if s.exited c then 0 else s.localCount c) = 0 :=
    Finset.sum_eq_zero fun c hc => by
      rw [hterm.2 c (Finset.mem_range.1 hc)]; simp
  have hzs : (∑ c ∈ Finset.range C, if s.exited c then 0 else s.localSum c) = 0 :=
    Finset.sum_eq_zero fun c hc => by
      rw [hterm.2 c (Finset.mem_range.1 hc)]; simp
  have hpn : popped s = n := by
    rcases hC with hC | hn
    · have hq := hinv.drained hC hterm.2
      rw [hinv.queue_eq] at hq
      rw [List.map_eq_nil_iff, List.range_eq_nil] at hq
      have h1 := hinv.popped_le
      have h2 := hinv.done_pushed hterm.1
      omega
    · have h1 := hinv.popped_le
      have h2 := hinv.pushed_le
      omega
  refine ⟨hpn, ?_, ?_⟩
  · have h := hinv.count_acc
    rw [hzc, hpn] at h
    omega
  · have h := hinv.sum_acc
    rw [hzs, hpn] at h
    omega

/-- C1: for every `num_threads ≥ 2` and `num_ints ≥ 0` (with the 32-bit `int`
range bounds under which the source's arithmetic does not overflow), every
terminated execution of the queue workload ends with the global count
accumulator exactly `(num_threads - 1) * num_ints` and the global sum
accumulator exactly `0 + 1 + .. + ((num_threads - 1) * num_ints - 1)`,
i.e. `n * (n - 1) / 2` for `n = (num_threads - 1) * num_ints`. -/
theorem queue_final_count_sum (T iters : Nat) (evs : List QEvent) (s : QState)
    (hT : 2 ≤ T) (_hT31 : T < 2 ^ 31) (_hi : iters < 2 ^ 31)
    (_hn : (T - 1) * iters < 2 ^ 31)
    (hrun : qrun (T - 1) ((T - 1) * iters) qinit evs = some s)
    (hterm : qterminal (T - 1) s) :
    s.gcount = (T - 1) * iters ∧
    s.gsum = ((T - 1) * iters) * ((T - 1) * iters - 1) / 2 := by
  have hinv := qinv_run (T - 1) ((T - 1) * iters) evs qinit s
    (qinv_init (T - 1) ((T - 1) * iters)) hrun
  have h := qfinal_values (T - 1) ((T - 1) * iters) s hinv hterm (Or.inl (by omega))
  exact ⟨h.2.1, by rw [h.2.2, range_sum_eq]⟩

/-- A short complete execution at `num_threads = 2`, `num_ints = 1`: the
producer pushes 0 and signals completion, consumer 0 pops it and flushes. -/
def qevsW : List QEvent := [.push, .setDone, .pop 0, .exitFlush 0]

/-- The final state of `qevsW`. -/
def qfinalW : QState :=
  { pushed := 1, queue := [], done := true,
    localSum := Function.update (fun _ => 0) 0 0,
    localCount := Function.update (fun _ => 0) 0 1,
    exited := Function.update (fun _ => false) 0 true,
    gsum := 0, gcount := 1, popLog := [(0, 0)] }

lemma qrunW : qrun (2 - 1) ((2 - 1) * 1) qinit qevsW = some qfinalW := rfl

lemma qterminalW : qterminal (2 - 1) qfinalW := by
  refine ⟨rfl, fun c hc => ?_⟩
  interval_cases c
  rfl

/-- Witness for C1 at `num_threads = 2`, `num_ints = 1`. -/
theorem queue_final_count_sum_witness :
    qfinalW.gcount = (2 - 1) * 1 ∧
    qfinalW.gsum = ((2 - 1) * 1) * ((2 - 1) * 1 - 1) / 2 :=
  queue_final_count_sum 2 1 qevsW qfinalW
    (by norm_num) (by norm_num) (by norm_num) (by norm_num) qrunW qterminalW

/-- Occurrence count of a value in `List.range N`. -/
lemma count_range (i N : Nat) : (List.range N).count i = if i < N then 1 else 0 := by
  induction N with
  | zero => simp
  | succ N ih =>
    rw [List.range_succ, List.count_append, ih]
    have hc : List.count i [N] = if i = N then 1 else 0 := by
      simp only [List.count_cons, List.count_nil, List.not_mem_nil, beq_iff_eq,
        Nat.zero_add]
      split_ifs <;> omega
    rw [hc]
    split_ifs <;> omega

/-- C4: in every terminated execution of the queue workload, every item the
producer pushes (the values `0 .. n - 1`) is popped exactly once across all
consumers — no item is dropped or double-counted, no spurious value appears —
and every pop is performed by a real consumer inside its lock-protected
critical section (the step relation serializes all queue accesses, modelling
the mutual-exclusion lock). -/
theorem queue_exactly_once (T iters : Nat) (evs : List QEvent) (s : QState)
    (hT : 2 ≤ T)
    (hrun : qrun (T - 1) ((T - 1) * iters) qinit evs = some s)
    (hterm : qterminal (T - 1) s) :
    (∀ v < (T - 1) * iters, (s.popLog.map Prod.snd).count v = 1) ∧
    (∀ v, (T - 1) * iters ≤ v → (s.popLog.map Prod.snd).count v = 0) ∧
    (∀ p ∈ s.popLog, p.1 < T - 1) := by
  have hinv := qinv_run (T - 1) ((T - 1) * iters) evs qinit s
    (qinv_init (T - 1) ((T - 1) * iters)) hrun
  have hfin := qfinal_values (T - 1) ((T - 1) * iters) s hinv hterm (Or.inl (by omega))
  have hlog := hinv.log_vals
  rw [hfin.1] at hlog
  refine ⟨fun v hv => ?_, fun v hv => ?_, hinv.log_consumers⟩
  · rw [hlog, count_range]
    exact if_pos hv
  · rw [hlog, count_range]
    exact if_neg (by omega)

/-- Witness for C4 at `num_threads = 2`, `num_ints = 1`: item 0 is popped
exactly once. -/
theorem queue_exactly_once_witness : (qfinalW.popLog.map Prod.snd).count 0 = 1 :=
  (queue_exactly_once 2 1 qevsW qfinalW (by norm_num) qrunW qterminalW).1
    0 (by norm_num)

/-- C5: running the queue workload with `num_threads = 1` cannot deadlock:
from any reachable state the workload can finish — the producer pushes
nothing (`total_work_items = 0`), sets the completion flag, the barrier
condition `count == 0` is immediately satisfied — and the final global count
and sum are both 0. -/
theorem queue_single_thread_completes (iters : Nat) (evs : List QEvent) (s : QState)
    (hrun : qrun (1 - 1) ((1 - 1) * iters) qinit evs = some s) :
    ∃ evs2 s2, qrun (1 - 1) ((1 - 1) * iters) s evs2 = some s2 ∧
      qterminal (1 - 1) s2 ∧ s2.gcount = 0 ∧ s2.gsum = 0 := by
  have h0 : (1 - 1) * iters = 0 := by omega
  have hinv := qinv_run (1 - 1) ((1 - 1) * iters) evs qinit s
    (qinv_init (1 - 1) ((1 - 1) * iters)) hrun
  have hple := hinv.pushed_le
  rw [h0] at hple
  have hpz : s.pushed = 0 := Nat.le_zero.1 hple
  have hpop := hinv.popped_le
  have hcnt := hinv.count_acc
  have hsum := hinv.sum_acc
  simp only [show (1 : Nat) - 1 = 0 from rfl, Finset.range_zero,
    Finset.sum_empty] at hcnt hsum
  have hps : popped s = 0 := by omega
  have hgc : s.gcount = 0 := by omega
  have hgs : s.gsum = 0 := by
    rw [hps] at hsum
    simpa using hsum
  cases hd : s.done with
  | true => exact ⟨[], s, rfl, ⟨hd, fun c hc => absurd hc (by omega)⟩, hgc, hgs⟩
  | false =>
    refine ⟨[QEvent.setDone], { s with done := true }, ?_,
      ⟨rfl, fun c hc => absurd hc (by omega)⟩, hgc, hgs⟩
    simp [qrun, qstep, h0, hpz, hd]

/-- Witness for C5 at `num_ints = 0` from the initial state. -/
theorem queue_single_thread_completes_witness :
    ∃ evs2 s2, qrun (1 - 1) ((1 - 1) * 0) qinit evs2 = some s2 ∧
      qterminal (1 - 1) s2 ∧ s2.gcount = 0 ∧ s2.gsum = 0 :=
  queue_single_thread_completes 0 [] qinit rfl

/-- C8: invoking a workload twice with the same configuration yields the same
final invariant values on both runs, whatever schedules the two runs take:
the final counter of the single-counter workload, the slot sum of the sharded
workload, and the global count and sum of the queue workload. -/
theorem repeat_run_same_invariants (T iters : Nat)
    (sc1 sc2 u1 u2 : List Nat) (evs1 evs2 : List QEvent) (q1 q2 : QState)
    (hv1 : validSched T iters sc1) (hv2 : validSched T iters sc2)
    (hp1 : u1.Perm (allIdxs T iters)) (hp2 : u2.Perm (allIdxs T iters))
    (hr1 : qrun (T - 1) ((T - 1) * iters) qinit evs1 = some q1)
    (hr2 : qrun (T - 1) ((T - 1) * iters) qinit evs2 = some q2)
    (ht1 : qterminal (T - 1) q1) (ht2 : qterminal (T - 1) q2) :
    runCounter sc1 = runCounter sc2 ∧
    sumSlots (runCounters u1) = sumSlots (runCounters u2) ∧
    q1.gcount = q2.gcount ∧ q1.gsum = q2.gsum := by
  have hside : 0 < T - 1 ∨ (T - 1) * iters = 0 := by
    rcases Nat.eq_zero_or_pos (T - 1) with h | h
    · exact Or.inr (by rw [h, Nat.zero_mul])
    · exact Or.inl h
  have h1 := qfinal_values (T - 1) ((T - 1) * iters) q1
    (qinv_run (T - 1) ((T - 1) * iters) evs1 qinit q1
      (qinv_init (T - 1) ((T - 1) * iters)) hr1) ht1 hside
  have h2 := qfinal_values (T - 1) ((T - 1) * iters) q2
    (qinv_run (T - 1) ((T - 1) * iters) evs2 qinit q2
      (qinv_init (T - 1) ((T - 1) * iters)) hr2) ht2 hside
  refine ⟨?_, ?_, ?_, ?_⟩
  · rw [runCounter_eq_length, runCounter_eq_length,
      validSched_length T iters sc1 hv1, validSched_length T iters sc2 hv2]
  · unfold sumSlots
    refine Finset.sum_congr rfl fun j _ => ?_
    rw [runCounters_apply, runCounters_apply, hp1.count_eq j, hp2.count_eq j]
  · rw [h1.2.1, h2.2.1]
  · rw [h1.2.2, h2.2.2]

/-- Witness for C8 at `num_threads = 2`, `num_ints = 1`, two different counter
interleavings, two (identical) sharded schedules, and two identical queue
executions. -/
theorem repeat_run_same_invariants_witness :
    runCounter [0, 1] = runCounter [1, 0] ∧
    sumSlots (runCounters (allIdxs 2 1)) = sumSlots (runCounters (allIdxs 2 1)) ∧
    qfinalW.gcount = qfinalW.gcount ∧ qfinalW.gsum = qfinalW.gsum :=
  repeat_run_same_invariants 2 1 [0, 1] [1, 0] (allIdxs 2 1) (allIdxs 2 1)
    qevsW qevsW qfinalW qfinalW
    (by decide) (by decide) (List.Perm.refl _) (List.Perm.refl _)
    qrunW qrunW qterminalW qterminalW

/-! ## Workload selector (`main`) and timed runner (`run_timed_test`) -/

/-- The three recognized workloads. -/
inductive Workload where
  | counter
  | counters
  | queue
deriving DecidableEq

/-- The dispatch chain at the end of `main`: map the behavior string to a
workload, or to `none` — in which case `main` runs no workload and only prints
the `invalid behavior parameter` report. -/
def select_behavior (b : String) : Option Workload :=
  if b = "counter" then some .counter
  else if b = "counters" then some .counters
  else if b = "queue" then some .queue
  else none

/-- Whether `main` reports the unknown-behavior condition (its final `else`
branch); it then falls off the end of `main` and the process exits cleanly. -/
def reportsUnknown (b : String) : Bool := (select_behavior b).isNone

/-- C6: the selector runs the single-counter workload iff the behavior string
is `"counter"`, the sharded workload iff it is `"counters"`, the queue
workload iff it is `"queue"`; any other string selects no workload and the
unknown-behavior condition is reported, with the process exiting cleanly. -/
theorem selector_dispatch :
    select_behavior "counter" = some Workload.counter ∧
    select_behavior "counters" = some Workload.counters ∧
    select_behavior "queue" = some Workload.queue ∧
    ∀ b : String, b ≠ "counter" → b ≠ "counters" → b ≠ "queue" →
      select_behavior b = none ∧ reportsUnknown b = true := by
  refine ⟨by decide, by decide, by decide, fun b h1 h2 h3 => ?_⟩
  have hnone : select_behavior b = none := by
    unfold select_behavior
    rw [if_neg h1, if_neg h2, if_neg h3]
  exact ⟨hnone, by unfold reportsUnknown; rw [hnone]; rfl⟩

/-- Witness for C6 at the unknown behavior string `"bogus"`. -/
theorem selector_dispatch_witness :
    select_behavior "bogus" = none ∧ reportsUnknown "bogus" = true :=
  selector_dispatch.2.2.2 "bogus" (by decide) (by decide) (by decide)

/-- What `run_timed_test` produces: the worker indices it spawned threads for,
the per-worker completed runs of the task collected by the join-all loop, and
the reported elapsed duration (C++ `duration<double>` modelled as an exact
rational). -/
structure TimedResult (α : Type) where
  invocations : List Nat
  results : List α
  elapsedSeconds : ℚ

/-- Model of `run_timed_test`: record a start timestamp `t1`; run
`threads[i] = std::thread(task, i)` for `i = 0 .. num_threads - 1`; join every
thread; record `t2` and report `t2 - t1` in fractional seconds.  The function
returns only once every worker has terminated, so `results` holds one
completed run of the task per spawned worker. -/
def run_timed_test {α : Type} (T : Nat) (task : Nat → α) (t1 t2 : ℚ) :
    TimedResult α :=
  { invocations := List.range T
    results := (List.range T).map task
    elapsedSeconds := t2 - t1 }

/-- C7: the timed runner spawns exactly `num_threads` workers, invokes
`task(i)` exactly once for each index `i < num_threads` and for no other
index, returns only after collecting every worker's completed run (join-all:
one result per worker, each the run of the task at that worker's index), and
reports the elapsed wall-clock duration `t2 - t1` in fractional seconds. -/
theorem timed_runner_spawns_all {α : Type} (T : Nat) (task : Nat → α)
    (t1 t2 : ℚ) :
    (run_timed_test T task t1 t2).invocations.length = T ∧
    (∀ i, i < T → (run_timed_test T task t1 t2).invocations.count i = 1) ∧
    (∀ i ∈ (run_timed_test T task t1 t2).invocations, i < T) ∧
    (run_timed_test T task t1 t2).results
      = (run_timed_test T task t1 t2).invocations.map task ∧
    (run_timed_test T task t1 t2).results.length = T ∧
    (run_timed_test T task t1 t2).elapsedSeconds = t2 - t1 := by
  refine ⟨by simp [run_timed_test], fun i hi => ?_, fun i hi => ?_, rfl,
    by simp [run_timed_test], rfl⟩
  · show (List.range T).count i = 1
    rw [count_range]
    exact if_pos hi
  · exact List.mem_range.1 hi

/-- Witness for C7 at `num_threads = 3`: worker index 1 is spawned exactly
once. -/
theorem timed_runner_spawns_all_witness :
    (run_timed_test 3 (fun i => i) 0 1).invocations.count 1 = 1 :=
  (timed_runner_spawns_all 3 (fun i => i) 0 1).2.1 1 (by norm_num)

end Threads
